import Mathlib

/-!
Verification development for the `briefcase` precedential-reasoning engine.

The Python source (`src/briefcase.py`) is embedded shallowly: factors and
cases become structures, the two `defaultdict(set)` attributes of
`PriorityOrder` become explicit key collections plus lookup functions, and
every operation that can raise returns an `Option`/pair carrying the post
state, since `defaultdict` lookups materialise missing keys as a side effect.
-/

/-- Embeds `decision_enum = Enum("Decision", ["pi", "delta", "un"])`. -/
inductive Decision where
  | pi
  | delta
  | un
deriving DecidableEq

/-- A Python value usable as a factor polarity or a case decision: either a
plain string (the polarity default of `Factor.__init__` is the string literal
"un") or a member of `decision_enum`.  The two kinds are never equal,
mirroring `"un" != decision_enum.un` in Python. -/
inductive Polarity where
  | str (s : String)
  | dec (d : Decision)
deriving DecidableEq

/-- Embeds class `Factor`: a named fact with a polarity.  Python overrides
`__eq__`/`__hash__` to compare the (name, polarity) pair, which is exactly
structural equality here. -/
structure Factor where
  name : String
  polarity : Polarity
deriving DecidableEq

/-- Injective encoding of a character list into one natural number, used only
to iterate finite sets of factors deterministically.  An encoding into `Nat`
is chosen because its comparisons evaluate inside the kernel. -/
def encChars : List Char → Nat
  | [] => 0
  | c :: cs => Nat.pair (c.toNat + 1) (encChars cs)

theorem pair_succ_ne_zero (n m : Nat) : Nat.pair (n + 1) m ≠ 0 := by
  unfold Nat.pair
  split <;> omega

theorem encChars_injective : Function.Injective encChars := by
  intro l1
  induction l1 with
  | nil =>
      intro l2 h
      cases l2 with
      | nil => rfl
      | cons b bs =>
          exact absurd (show Nat.pair (b.toNat + 1) (encChars bs) = 0 from by
            simpa [encChars] using h.symm) (pair_succ_ne_zero _ _)
  | cons a as ih =>
      intro l2 h
      cases l2 with
      | nil =>
          exact absurd (show Nat.pair (a.toNat + 1) (encChars as) = 0 from by
            simpa [encChars] using h) (pair_succ_ne_zero _ _)
      | cons b bs =>
          obtain ⟨h1, h2⟩ := Nat.pair_eq_pair.mp (by simpa [encChars] using h)
          have hab : a = b := by
            have hn : a.toNat = b.toNat := by omega
            calc a = Char.ofNat a.toNat := (Char.ofNat_toNat a).symm
              _ = Char.ofNat b.toNat := by rw [hn]
              _ = b := Char.ofNat_toNat b
          rw [hab, ih h2]

/-- Injective encoding of a string. -/
def encString (s : String) : Nat := encChars s.data

theorem encString_injective : Function.Injective encString := by
  intro s t h
  cases s
  cases t
  exact congrArg String.mk (encChars_injective h)

/-- The three members of `decision_enum`, numbered. -/
def Decision.toNat : Decision → Nat
  | .pi => 0
  | .delta => 1
  | .un => 2

/-- Injective encoding of a polarity value. -/
def encPolarity : Polarity → Nat
  | .str s => Nat.pair 0 (encString s)
  | .dec d => Nat.pair 1 d.toNat

theorem encPolarity_injective : Function.Injective encPolarity := by
  intro p q h
  rcases p with sp | dp <;> rcases q with sq | dq <;>
    simp only [encPolarity] at h <;>
    obtain ⟨h1, h2⟩ := Nat.pair_eq_pair.mp h
  · rw [encString_injective h2]
  · omega
  · omega
  · rcases dp <;> rcases dq <;> simp_all [Decision.toNat]

/-- Injective encoding of a factor. -/
def encFactor (f : Factor) : Nat :=
  Nat.pair (encString f.name) (encPolarity f.polarity)

theorem encFactor_injective : Function.Injective encFactor := by
  rintro ⟨na, pa⟩ ⟨nb, pb⟩ h
  obtain ⟨h1, h2⟩ := Nat.pair_eq_pair.mp h
  simp only [Factor.mk.injEq]
  exact ⟨encString_injective h1, encPolarity_injective h2⟩

/-- Total order on factors induced by the encoding; used to enumerate the
factors of a frozenset in a fixed sequence. -/
def fle (f g : Factor) : Prop := encFactor f ≤ encFactor g

instance : DecidableRel fle := fun f g =>
  inferInstanceAs (Decidable (encFactor f ≤ encFactor g))

instance : IsTrans Factor fle := ⟨fun _ _ _ => Nat.le_trans⟩

instance : IsAntisymm Factor fle :=
  ⟨fun _ _ h1 h2 => encFactor_injective (Nat.le_antisymm h1 h2)⟩

instance : IsTotal Factor fle := ⟨fun _ _ => Nat.le_total _ _⟩

/-- A factor set: Python `frozenset` of factors, compared extensionally. -/
abbrev FS := Finset Factor

/-- Deterministic enumeration of a frozenset of factors, in encoding order.
Insertion sort is used because it evaluates inside the kernel. -/
def sortedFactors (s : FS) : List Factor :=
  Quot.liftOn s.1 (fun l => l.insertionSort fle) fun l1 l2 h =>
    List.eq_of_perm_of_sorted
      ((List.perm_insertionSort fle l1).trans
        (h.trans (List.perm_insertionSort fle l2).symm))
      (List.sorted_insertionSort fle l1) (List.sorted_insertionSort fle l2)

theorem mem_sortedFactors {f : Factor} {s : FS} :
    f ∈ sortedFactors s ↔ f ∈ s := by
  rcases s with ⟨m, hm⟩
  induction m using Quotient.inductionOn with
  | h l =>
      simp only [sortedFactors, Finset.mem_mk, Quot.liftOn, Multiset.quot_mk_to_coe, Multiset.mem_coe]
      exact
        (List.perm_insertionSort fle l).mem_iff

/-- Embeds class `Case`: the four attributes stored by `Case.__init__`. -/
structure Case where
  pi_factors : FS := ∅
  delta_factors : FS := ∅
  decision : Polarity := .dec .un
  reason : FS := ∅
deriving DecidableEq

/-- Embeds `Case.__init__`: stores the four arguments with no validation. -/
def Case.init (pi_factors : FS := ∅) (delta_factors : FS := ∅)
    (decision : Polarity := .dec .un) (reason : FS := ∅) : Case :=
  ⟨pi_factors, delta_factors, decision, reason⟩

/-- Embeds `Factor.__init__`: stores name and polarity with no validation;
the polarity default is the string "un". -/
def Factor.init (name : String) (polarity : Polarity := .str "un") : Factor :=
  ⟨name, polarity⟩

/-- Embeds `Case.defeated`: the factors defeated by the decision. -/
def Case.defeated (c : Case) : FS :=
  if c.decision = .dec .pi then c.delta_factors
  else if c.decision = .dec .delta then c.pi_factors
  else ∅

/-- Input record for `Case.from_dict`: lists of factor names for the keys
`pi`, `delta` and `reason`, plus the `decision` label. -/
structure CaseDict where
  pi : List String
  delta : List String
  decision : String
  reason : List String

/-- Embeds the lookup `decision_enum[label]`; `none` models the `KeyError`
raised for a label that is not a member name. -/
def decodeDecision (s : String) : Option Decision :=
  if s = "pi" then some .pi
  else if s = "delta" then some .delta
  else if s = "un" then some .un
  else none

/-- The `pi_factors` frozenset built by `Case.from_dict`. -/
def CaseDict.piFactors (d : CaseDict) : FS :=
  (d.pi.map fun n => Factor.mk n (.dec .pi)).toFinset

/-- The `delta_factors` frozenset built by `Case.from_dict`. -/
def CaseDict.deltaFactors (d : CaseDict) : FS :=
  (d.delta.map fun n => Factor.mk n (.dec .delta)).toFinset

/-- The `reason_factors` frozenset built by `Case.from_dict`, tagged with the
decoded decision value. -/
def CaseDict.reasonFactors (d : CaseDict) (dv : Decision) : FS :=
  (d.reason.map fun n => Factor.mk n (.dec dv)).toFinset

/-- The `winning_factors` of `Case.from_dict`: the pi side for decision `pi`,
otherwise the delta side. -/
def CaseDict.winningFactors (d : CaseDict) (dv : Decision) : FS :=
  if dv = .pi then d.piFactors else d.deltaFactors

/-- The exceptions `Case.from_dict` can raise: a `KeyError` for a bad
decision label, a `ValueError` when the reason is not a subset of the winning
factors. -/
inductive FromDictError where
  | keyError (label : String)
  | valueError
deriving DecidableEq

/-- Embeds `Case.from_dict`. -/
def Case.from_dict (d : CaseDict) : Except FromDictError Case :=
  match decodeDecision d.decision with
  | none => .error (.keyError d.decision)
  | some dv =>
      if d.reasonFactors dv ⊆ d.winningFactors dv then
        .ok ⟨d.piFactors, d.deltaFactors, .dec dv, d.reasonFactors dv⟩
      else .error .valueError

/-- Embeds the `PriorityOrder` state.  Python's two `defaultdict(set)`
attributes are each modelled as an explicit key collection plus a lookup
function: `okeys`/`oval` for `self.order` (keys kept in insertion order,
since `.items()` is iterated) and `ikeys`/`ival` for
`self.defeated_factor_index` (never iterated, so a `Finset` of keys
suffices).  Buckets are duplicate-free lists; all reads go through
`oGet`/`iGet` below, which return the empty bucket for a missing key exactly
like a `defaultdict` lookup does. -/
structure PriorityOrder where
  okeys : List FS
  oval : FS → List FS
  ikeys : Finset Factor
  ival : Factor → List FS

/-- Embeds `PriorityOrder.__init__`: both dictionaries start empty. -/
def emptyPO : PriorityOrder := ⟨[], fun _ => [], ∅, fun _ => []⟩

/-- Value of `self.order[k]` as read by a `defaultdict`: the stored bucket,
or the empty bucket when `k` is not a key. -/
def oGet (po : PriorityOrder) (k : FS) : List FS :=
  if k ∈ po.okeys then po.oval k else []

/-- Value of `self.defeated_factor_index[f]` as read by a `defaultdict`. -/
def iGet (po : PriorityOrder) (f : Factor) : List FS :=
  if f ∈ po.ikeys then po.ival f else []

/-- Python `set.add` on a bucket: append unless already present. -/
def addElem (x : FS) (l : List FS) : List FS :=
  if x ∈ l then l else l ++ [x]

/-- Embeds `PriorityOrder.add_order_with_subsets`: adds `reason` to the
bucket of `defeated` in `order` and records `defeated` in the inverted index
bucket of each of its factors. -/
def add_order_with_subsets (po : PriorityOrder) (reason defeated : FS) :
    PriorityOrder where
  okeys := if defeated ∈ po.okeys then po.okeys else po.okeys ++ [defeated]
  oval := fun k =>
    if k = defeated then addElem reason (oGet po defeated) else oGet po k
  ikeys := po.ikeys ∪ defeated
  ival := fun f =>
    if f ∈ defeated then addElem defeated (iGet po f) else iGet po f

/-- Embeds `PriorityOrder.add_pair_as_appropriate`. -/
def add_pair_as_appropriate (po : PriorityOrder) (r1 r2 : FS) :
    PriorityOrder :=
  if r1 = r2 then po
  else if r1 ⊆ r2 then add_order_with_subsets po r2 r1
  else if r2 ⊆ r1 then add_order_with_subsets po r1 r2
  else po

/-- Embeds `PriorityOrder.unsafe_add_case`.  The Python loop iterates the
snapshot `list(self.order.items())` taken after the first insertion; the
bucket values are snapshotted here as well, which yields the same final
state: every element added to a bucket during the loop is either
`case.reason` itself or a set `z` for which `add_pair_as_appropriate
(case.reason, z)` has already executed, so the extra live-bucket iterations
of Python only repeat idempotent set insertions. -/
def unsafe_add_case (po : PriorityOrder) (c : Case) : PriorityOrder :=
  let po1 := add_order_with_subsets po c.reason c.defeated
  (po1.okeys.map fun k => (k, oGet po1 k)).foldl
    (fun s rds =>
      rds.2.foldl (fun s2 d => add_pair_as_appropriate s2 c.reason d)
        (add_pair_as_appropriate s c.reason rds.1))
    po1

/-- Embeds `PriorityOrder.unsafe_add_cases`. -/
def unsafe_add_cases (po : PriorityOrder) (cs : List Case) : PriorityOrder :=
  cs.foldl unsafe_add_case po

/-- The `supersets` of `is_consistent`: the intersection, over the factors of
a nonempty `new_reason`, of the index buckets of those factors, computed as
the members of some bucket that lie in every bucket. -/
def candidateKeys (po : PriorityOrder) (new_reason : FS) : List FS :=
  (((sortedFactors new_reason).flatMap fun f => iGet po f).dedup).filter
    fun S => decide (∀ f ∈ new_reason, S ∈ iGet po f)

/-- The boolean `is_consistent` computes for a nonempty `new_reason`: no
reason recorded against a superset of `new_reason` may be contained in
`new_defeated`. -/
def consistentRes (po : PriorityOrder) (new_reason new_defeated : FS) : Bool :=
  decide (¬ ∃ S ∈ candidateKeys po new_reason, ∃ r ∈ oGet po S, r ⊆ new_defeated)

/-- Embeds `PriorityOrder.is_consistent`.  The first component is `none`
exactly when the Python call raises: an empty `new_reason` makes
`frozenset.intersection(*[])` a `TypeError` (no index lookup has happened at
that point, so the state is returned untouched).  The `defaultdict` lookups
materialise missing keys, so the post state adds `new_reason`'s factors to
`ikeys` and appends to `okeys` any superset that is not yet a key (which
cannot happen once the two structures are in sync). -/
def is_consistent (po : PriorityOrder) (new_reason new_defeated : FS) :
    Option Bool × PriorityOrder :=
  if new_reason = ∅ then (none, po)
  else
    (some (consistentRes po new_reason new_defeated),
      { okeys :=
          po.okeys ++ (candidateKeys po new_reason).filter
            fun S => decide (S ∉ po.okeys)
        oval := fun k => oGet po k
        ikeys := po.ikeys ∪ new_reason
        ival := fun f => iGet po f })

/-- The `(reason, defeated)` argument pairs `is_cb_consistent` passes to
`is_consistent`, in traversal order: for each key (a defeated set) each
member of its bucket (a stored reason) is checked as
`is_consistent(reason, defeated)`. -/
def cbPairs (po : PriorityOrder) : List (FS × FS) :=
  po.okeys.flatMap fun k => (oGet po k).map fun r => (r, k)

/-- The argument pairs `count_inconsistencies` passes to `is_consistent`.
The Python loop reads `for reason, defeated_set in self.order.items()`, but
the keys of `order` are defeated sets, so each pair arrives swapped: the key
is passed as `new_reason` and the bucket member as `new_defeated`. -/
def countPairs (po : PriorityOrder) : List (FS × FS) :=
  po.okeys.flatMap fun k => (oGet po k).map fun d => (k, d)

/-- The loop of `is_cb_consistent`: check each pair, short-circuiting on the
first violation, threading the state mutated by each `is_consistent` call. -/
def runChecks : PriorityOrder → List (FS × FS) → Option Bool × PriorityOrder
  | po, [] => (some true, po)
  | po, p :: rest =>
      match is_consistent po p.1 p.2 with
      | (none, po1) => (none, po1)
      | (some b, po1) => if b then runChecks po1 rest else (some false, po1)

/-- Embeds `PriorityOrder.is_cb_consistent`. -/
def is_cb_consistent (po : PriorityOrder) : Option Bool × PriorityOrder :=
  runChecks po (cbPairs po)

/-- The loop of `count_inconsistencies`: count the failing pairs without
short-circuiting, threading the state like `runChecks`. -/
def runCount :
    PriorityOrder → List (FS × FS) → Nat → Option Nat × PriorityOrder
  | po, [], n => (some n, po)
  | po, p :: rest, n =>
      match is_consistent po p.1 p.2 with
      | (none, po1) => (none, po1)
      | (some b, po1) => runCount po1 rest (if b then n else n + 1)

/-- Embeds `PriorityOrder.count_inconsistencies`. -/
def count_inconsistencies (po : PriorityOrder) : Option Nat × PriorityOrder :=
  runCount po (countPairs po) 0

/-- Embeds `PriorityOrder.is_case_consistent_with`. -/
def is_case_consistent_with (po : PriorityOrder) (c : Case) :
    Option Bool × PriorityOrder :=
  is_consistent po c.reason c.defeated

/-- The stored outweighs relation: `r` is recorded as beating `d`. -/
def outweighs (po : PriorityOrder) (r d : FS) : Prop := r ∈ oGet po d

/-- Fold a list of cases into the empty order, as `CaseBase.__init__` does. -/
def runCases (cs : List Case) : PriorityOrder := unsafe_add_cases emptyPO cs

theorem mem_addElem {x y : FS} {l : List FS} :
    x ∈ addElem y l ↔ x ∈ l ∨ x = y := by
  unfold addElem
  split
  · constructor
    · exact Or.inl
    · rintro (hx | rfl)
      · exact hx
      · assumption
  · simp [List.mem_append]

theorem okeys_add_order (po : PriorityOrder) (r d k : FS) :
    k ∈ (add_order_with_subsets po r d).okeys ↔ k ∈ po.okeys ∨ k = d := by
  simp only [add_order_with_subsets]
  split
  · constructor
    · exact Or.inl
    · rintro (h | rfl)
      · exact h
      · assumption
  · simp [List.mem_append]

theorem oGet_add_order (po : PriorityOrder) (r d k : FS) :
    oGet (add_order_with_subsets po r d) k =
      if k = d then addElem r (oGet po d) else oGet po k := by
  by_cases hk : k = d
  · subst hk
    rw [if_pos rfl]
    rw [oGet, if_pos ((okeys_add_order po r k k).mpr (Or.inr rfl))]
    simp [add_order_with_subsets]
  · rw [if_neg hk]
    by_cases hmem : k ∈ po.okeys
    · rw [oGet, if_pos ((okeys_add_order po r d k).mpr (Or.inl hmem))]
      simp [add_order_with_subsets, hk]
    · have hout : k ∉ (add_order_with_subsets po r d).okeys := by
        rw [okeys_add_order]
        rintro (h | h)
        · exact hmem h
        · exact hk h
      rw [oGet, if_neg hout, oGet, if_neg hmem]

theorem iGet_add_order (po : PriorityOrder) (r d : FS) (f : Factor) :
    iGet (add_order_with_subsets po r d) f =
      if f ∈ d then addElem d (iGet po f) else iGet po f := by
  by_cases hf : f ∈ d
  · rw [if_pos hf]
    rw [iGet, if_pos (show f ∈ (add_order_with_subsets po r d).ikeys by
      simp [add_order_with_subsets, hf])]
    simp [add_order_with_subsets, hf]
  · rw [if_neg hf]
    by_cases hmem : f ∈ po.ikeys
    · rw [iGet, if_pos (show f ∈ (add_order_with_subsets po r d).ikeys by
        simp [add_order_with_subsets, hmem])]
      simp [add_order_with_subsets, hf]
    · rw [iGet, if_neg (show f ∉ (add_order_with_subsets po r d).ikeys by
        simp [add_order_with_subsets, hmem, hf]), iGet, if_neg hmem]

theorem is_consistent_of_ne (po : PriorityOrder) (r d : FS) (h : r ≠ ∅) :
    is_consistent po r d =
      (some (consistentRes po r d),
        { okeys :=
            po.okeys ++ (candidateKeys po r).filter fun S => decide (S ∉ po.okeys)
          oval := fun k => oGet po k
          ikeys := po.ikeys ∪ r
          ival := fun f => iGet po f }) := by
  rw [is_consistent, if_neg h]

theorem is_consistent_empty_reason (po : PriorityOrder) (d : FS) :
    is_consistent po ∅ d = (none, po) := by
  rw [is_consistent, if_pos rfl]

theorem oGet_is_consistent (po : PriorityOrder) (r d k : FS) :
    oGet ((is_consistent po r d).2) k = oGet po k := by
  by_cases h : r = ∅
  · subst h
    rw [is_consistent_empty_reason]
  · rw [is_consistent_of_ne po r d h]
    by_cases hk :
      k ∈ po.okeys ++ (candidateKeys po r).filter fun S => decide (S ∉ po.okeys)
    · exact if_pos hk
    · rw [oGet, if_neg hk, oGet,
        if_neg (fun hmem => hk (List.mem_append_left _ hmem))]

theorem iGet_is_consistent (po : PriorityOrder) (r d : FS) (f : Factor) :
    iGet ((is_consistent po r d).2) f = iGet po f := by
  by_cases h : r = ∅
  · subst h
    rw [is_consistent_empty_reason]
  · rw [is_consistent_of_ne po r d h]
    by_cases hf : f ∈ po.ikeys ∪ r
    · rw [iGet, if_pos hf]
    · rw [iGet, if_neg hf, iGet,
        if_neg (fun hmem => hf (Finset.mem_union_left _ hmem))]

theorem mem_candidateKeys {po : PriorityOrder} {r S : FS} :
    S ∈ candidateKeys po r ↔
      (∃ f ∈ r, S ∈ iGet po f) ∧ ∀ f ∈ r, S ∈ iGet po f := by
  simp [candidateKeys, List.mem_filter, List.mem_flatMap, mem_sortedFactors]

theorem mem_oGet_okeys {po : PriorityOrder} {k x : FS} (h : x ∈ oGet po k) :
    k ∈ po.okeys := by
  by_contra hk
  rw [oGet, if_neg hk] at h
  cases h

/-- State growth: every stored order bucket only gains members. -/
def Grows (po po' : PriorityOrder) : Prop :=
  ∀ k x, x ∈ oGet po k → x ∈ oGet po' k

theorem grows_refl (po : PriorityOrder) : Grows po po := fun _ _ h => h

theorem grows_trans {po1 po2 po3 : PriorityOrder}
    (h1 : Grows po1 po2) (h2 : Grows po2 po3) : Grows po1 po3 :=
  fun k x hx => h2 k x (h1 k x hx)

theorem grows_add_order (po : PriorityOrder) (r d : FS) :
    Grows po (add_order_with_subsets po r d) := by
  intro k x hx
  rw [oGet_add_order]
  split
  · next hk =>
      subst hk
      exact mem_addElem.mpr (Or.inl hx)
  · exact hx

theorem grows_add_pair (po : PriorityOrder) (r1 r2 : FS) :
    Grows po (add_pair_as_appropriate po r1 r2) := by
  unfold add_pair_as_appropriate
  split_ifs
  · exact grows_refl po
  · exact grows_add_order po r2 r1
  · exact grows_add_order po r1 r2
  · exact grows_refl po

theorem grows_foldl {α : Type} (f : PriorityOrder → α → PriorityOrder)
    (hf : ∀ s a, Grows s (f s a)) (l : List α) (s : PriorityOrder) :
    Grows s (l.foldl f s) := by
  induction l generalizing s with
  | nil => exact grows_refl s
  | cons a l ih => exact grows_trans (hf s a) (ih (f s a))

theorem grows_case_step (r : FS) (s : PriorityOrder) (rds : FS × List FS) :
    Grows s
      (rds.2.foldl (fun s2 d => add_pair_as_appropriate s2 r d)
        (add_pair_as_appropriate s r rds.1)) :=
  grows_trans (grows_add_pair s r rds.1)
    (grows_foldl _ (fun s2 d => grows_add_pair s2 r d) rds.2 _)

theorem grows_unsafe_add_case (po : PriorityOrder) (c : Case) :
    Grows po (unsafe_add_case po c) := by
  unfold unsafe_add_case
  exact grows_trans (grows_add_order po c.reason c.defeated)
    (grows_foldl _ (grows_case_step c.reason) _ _)

theorem foldl_pres {α : Type} (f : PriorityOrder → α → PriorityOrder)
    (P : PriorityOrder → Prop) (hf : ∀ s a, P s → P (f s a)) :
    ∀ (l : List α) (s : PriorityOrder), P s → P (l.foldl f s) := by
  intro l
  induction l with
  | nil => exact fun s h => h
  | cons a l ih => exact fun s h => ih (f s a) (hf s a h)

theorem foldl_estab {α : Type} (f : PriorityOrder → α → PriorityOrder)
    (P : PriorityOrder → Prop) (hf : ∀ s a, P s → P (f s a)) (a : α)
    (est : ∀ s, P (f s a)) :
    ∀ (l : List α) (s : PriorityOrder), a ∈ l → P (l.foldl f s) := by
  intro l
  induction l with
  | nil =>
      intro s h
      cases h
  | cons b l ih =>
      intro s h
      rcases List.mem_cons.mp h with rfl | hmem
      · exact foldl_pres f P hf l (f s a) (est s)
      · exact ih (f s b) hmem

theorem reason_mem_add_order (po : PriorityOrder) (r d : FS) :
    r ∈ oGet (add_order_with_subsets po r d) d := by
  rw [oGet_add_order, if_pos rfl]
  exact mem_addElem.mpr (Or.inr rfl)

theorem add_pair_records_left {A B : FS} (hAB : A ⊂ B) (s : PriorityOrder) :
    B ∈ oGet (add_pair_as_appropriate s B A) A := by
  obtain ⟨hsub, hnsub⟩ := ssubset_iff_subset_not_subset.mp hAB
  unfold add_pair_as_appropriate
  rw [if_neg (fun h => hnsub (le_of_eq h)), if_neg hnsub, if_pos hsub]
  exact reason_mem_add_order s B A

theorem add_pair_records_right {A B : FS} (hAB : A ⊂ B) (s : PriorityOrder) :
    B ∈ oGet (add_pair_as_appropriate s A B) A := by
  obtain ⟨hsub, _⟩ := ssubset_iff_subset_not_subset.mp hAB
  unfold add_pair_as_appropriate
  rw [if_neg hAB.ne, if_pos hsub]
  exact reason_mem_add_order s B A

theorem unsafe_add_case_reason_recorded (po : PriorityOrder) (c : Case) :
    c.reason ∈ oGet (unsafe_add_case po c) c.defeated := by
  unfold unsafe_add_case
  exact foldl_pres _ (fun s => c.reason ∈ oGet s c.defeated)
    (fun s a h => grows_case_step c.reason s a c.defeated c.reason h) _ _
    (reason_mem_add_order po c.reason c.defeated)

theorem unsafe_add_case_crossB {A B : FS} (po : PriorityOrder) (c : Case)
    (hc : c.reason = B) (hAB : A ⊂ B) (hA : ∃ K, A ∈ oGet po K) :
    B ∈ oGet (unsafe_add_case po c) A := by
  subst hc
  obtain ⟨K, hK⟩ := hA
  unfold unsafe_add_case
  have hK1 : A ∈ oGet (add_order_with_subsets po c.reason c.defeated) K :=
    grows_add_order po c.reason c.defeated K A hK
  refine foldl_estab _ (fun s => c.reason ∈ oGet s A)
    (fun s a h => grows_case_step c.reason s a A c.reason h)
    (K, oGet (add_order_with_subsets po c.reason c.defeated) K)
    (fun s => ?_) _ _
    (List.mem_map.mpr ⟨K, mem_oGet_okeys hK1, rfl⟩)
  exact foldl_estab (fun s2 d => add_pair_as_appropriate s2 c.reason d)
    (fun s2 => c.reason ∈ oGet s2 A)
    (fun s2 d h => grows_add_pair s2 c.reason d A c.reason h) A
    (fun s2 => add_pair_records_left hAB s2) _ _ hK1

theorem unsafe_add_case_crossA {A B : FS} (po : PriorityOrder) (c : Case)
    (hc : c.reason = A) (hAB : A ⊂ B) (hB : ∃ K, B ∈ oGet po K) :
    B ∈ oGet (unsafe_add_case po c) A := by
  subst hc
  obtain ⟨K, hK⟩ := hB
  unfold unsafe_add_case
  have hK1 : B ∈ oGet (add_order_with_subsets po c.reason c.defeated) K :=
    grows_add_order po c.reason c.defeated K B hK
  refine foldl_estab _ (fun s => B ∈ oGet s c.reason)
    (fun s a h => grows_case_step c.reason s a c.reason B h)
    (K, oGet (add_order_with_subsets po c.reason c.defeated) K)
    (fun s => ?_) _ _
    (List.mem_map.mpr ⟨K, mem_oGet_okeys hK1, rfl⟩)
  exact foldl_estab (fun s2 d => add_pair_as_appropriate s2 c.reason d)
    (fun s2 => B ∈ oGet s2 c.reason)
    (fun s2 d h => grows_add_pair s2 c.reason d c.reason B h) B
    (fun s2 => add_pair_records_right hAB s2) _ _ hK1

theorem unsafe_add_cases_cons (s : PriorityOrder) (c : Case) (cs : List Case) :
    unsafe_add_cases s (c :: cs) = unsafe_add_cases (unsafe_add_case s c) cs :=
  rfl

theorem unsafe_add_cases_aux1 {A B : FS} (hAB : A ⊂ B) :
    ∀ (cs : List Case) (s : PriorityOrder), (∃ c ∈ cs, c.reason = B) →
      (∃ K, A ∈ oGet s K) → B ∈ oGet (unsafe_add_cases s cs) A := by
  intro cs
  induction cs with
  | nil =>
      rintro s ⟨c, hc, _⟩
      cases hc
  | cons c cs ih =>
      rintro s ⟨c', hc', hrB⟩ hA
      rw [unsafe_add_cases_cons]
      rcases List.mem_cons.mp hc' with rfl | hmem
      · exact foldl_pres unsafe_add_case (fun t => B ∈ oGet t A)
          (fun t a h => grows_unsafe_add_case t a A B h) cs _
          (unsafe_add_case_crossB s c' hrB hAB hA)
      · obtain ⟨K, hK⟩ := hA
        exact ih (unsafe_add_case s c) ⟨c', hmem, hrB⟩
          ⟨K, grows_unsafe_add_case s c K A hK⟩

theorem unsafe_add_cases_aux2 {A B : FS} (hAB : A ⊂ B) :
    ∀ (cs : List Case) (s : PriorityOrder), (∃ c ∈ cs, c.reason = A) →
      (∃ K, B ∈ oGet s K) → B ∈ oGet (unsafe_add_cases s cs) A := by
  intro cs
  induction cs with
  | nil =>
      rintro s ⟨c, hc, _⟩
      cases hc
  | cons c cs ih =>
      rintro s ⟨c', hc', hrA⟩ hB
      rw [unsafe_add_cases_cons]
      rcases List.mem_cons.mp hc' with rfl | hmem
      · exact foldl_pres unsafe_add_case (fun t => B ∈ oGet t A)
          (fun t a h => grows_unsafe_add_case t a A B h) cs _
          (unsafe_add_case_crossA s c' hrA hAB hB)
      · obtain ⟨K, hK⟩ := hB
        exact ih (unsafe_add_case s c) ⟨c', hmem, hrA⟩
          ⟨K, grows_unsafe_add_case s c K B hK⟩

theorem unsafe_add_cases_monotone {A B : FS} (hAB : A ⊂ B) :
    ∀ (cs : List Case) (s : PriorityOrder), (∃ c ∈ cs, c.reason = A) →
      (∃ c ∈ cs, c.reason = B) → B ∈ oGet (unsafe_add_cases s cs) A := by
  intro cs
  induction cs with
  | nil =>
      rintro s ⟨c, hc, _⟩
      cases hc
  | cons c cs ih =>
      rintro s ⟨ca, hca, hraA⟩ ⟨cb, hcb, hrbB⟩
      rw [unsafe_add_cases_cons]
      rcases List.mem_cons.mp hca with rfl | hmemA
      · rcases List.mem_cons.mp hcb with rfl | hmemB
        · exact absurd (hraA.symm.trans hrbB) hAB.ne
        · exact unsafe_add_cases_aux1 hAB cs _ ⟨cb, hmemB, hrbB⟩
            ⟨ca.defeated, hraA ▸ unsafe_add_case_reason_recorded s ca⟩
      · rcases List.mem_cons.mp hcb with rfl | hmemB
        · exact unsafe_add_cases_aux2 hAB cs _ ⟨ca, hmemA, hraA⟩
            ⟨cb.defeated, hrbB ▸ unsafe_add_case_reason_recorded s cb⟩
        · exact ih (unsafe_add_case s c) ⟨ca, hmemA, hraA⟩ ⟨cb, hmemB, hrbB⟩

theorem mem_iGet_ikeys {po : PriorityOrder} {f : Factor} {x : FS}
    (h : x ∈ iGet po f) : f ∈ po.ikeys := by
  by_contra hf
  rw [iGet, if_neg hf] at h
  cases h

/-- Synchronisation invariant between the two structures (claim C7): every
order key is indexed under each of its factors, and every indexed set
contains the indexing factor and is an order key. -/
def SyncInv (po : PriorityOrder) : Prop :=
  (∀ k ∈ po.okeys, ∀ f ∈ k, k ∈ iGet po f) ∧
  (∀ f : Factor, ∀ S ∈ iGet po f, f ∈ S ∧ S ∈ po.okeys)

theorem syncInv_empty : SyncInv emptyPO := by
  constructor
  · intro k hk
    cases hk
  · intro f S hS
    simp [iGet, emptyPO] at hS

theorem syncInv_congr (po' po : PriorityOrder)
    (hok : ∀ k : FS, k ∈ po'.okeys ↔ k ∈ po.okeys)
    (hig : ∀ f, iGet po' f = iGet po f) (h : SyncInv po) : SyncInv po' := by
  obtain ⟨hfwd, hbwd⟩ := h
  constructor
  · intro k hk f hf
    rw [hig]
    exact hfwd k ((hok k).mp hk) f hf
  · intro f S hS
    rw [hig] at hS
    obtain ⟨h1, h2⟩ := hbwd f S hS
    exact ⟨h1, (hok S).mpr h2⟩

theorem syncInv_add_order {po : PriorityOrder} (h : SyncInv po) (r d : FS) :
    SyncInv (add_order_with_subsets po r d) := by
  obtain ⟨hfwd, hbwd⟩ := h
  constructor
  · intro k hk f hf
    rw [iGet_add_order]
    rcases (okeys_add_order po r d k).mp hk with hk' | rfl
    · by_cases hfd : f ∈ d
      · rw [if_pos hfd]
        exact mem_addElem.mpr (Or.inl (hfwd k hk' f hf))
      · rw [if_neg hfd]
        exact hfwd k hk' f hf
    · rw [if_pos hf]
      exact mem_addElem.mpr (Or.inr rfl)
  · intro f S hS
    rw [iGet_add_order] at hS
    by_cases hfd : f ∈ d
    · rw [if_pos hfd] at hS
      rcases mem_addElem.mp hS with hS' | heq
      · obtain ⟨h1, h2⟩ := hbwd f S hS'
        exact ⟨h1, (okeys_add_order po r d S).mpr (Or.inl h2)⟩
      · subst heq
        exact ⟨hfd, (okeys_add_order po r S S).mpr (Or.inr rfl)⟩
    · rw [if_neg hfd] at hS
      obtain ⟨h1, h2⟩ := hbwd f S hS
      exact ⟨h1, (okeys_add_order po r d S).mpr (Or.inl h2)⟩

theorem syncInv_add_pair {po : PriorityOrder} (h : SyncInv po) (r1 r2 : FS) :
    SyncInv (add_pair_as_appropriate po r1 r2) := by
  unfold add_pair_as_appropriate
  split_ifs
  · exact h
  · exact syncInv_add_order h r2 r1
  · exact syncInv_add_order h r1 r2
  · exact h

theorem syncInv_unsafe_add_case {po : PriorityOrder} (h : SyncInv po)
    (c : Case) : SyncInv (unsafe_add_case po c) := by
  unfold unsafe_add_case
  refine foldl_pres _ SyncInv ?_ _ _ (syncInv_add_order h c.reason c.defeated)
  intro s a hs
  exact foldl_pres _ SyncInv (fun s2 d h2 => syncInv_add_pair h2 c.reason d)
    a.2 _ (syncInv_add_pair hs c.reason a.1)

theorem syncInv_unsafe_add_cases {po : PriorityOrder} (h : SyncInv po)
    (cs : List Case) : SyncInv (unsafe_add_cases po cs) :=
  foldl_pres unsafe_add_case SyncInv
    (fun _ c h2 => syncInv_unsafe_add_case h2 c) cs po h

theorem okeys_is_consistent_of_sync {po : PriorityOrder}
    (hb : ∀ f : Factor, ∀ S ∈ iGet po f, S ∈ po.okeys) (r d : FS) :
    ((is_consistent po r d).2).okeys = po.okeys := by
  by_cases hr : r = ∅
  · subst hr
    rw [is_consistent_empty_reason]
  · rw [is_consistent_of_ne po r d hr]
    show po.okeys ++ _ = po.okeys
    rw [List.filter_eq_nil_iff.mpr ?_, List.append_nil]
    intro S hS
    obtain ⟨⟨f, _, hSf⟩, _⟩ := mem_candidateKeys.mp hS
    simpa using hb f S hSf

theorem syncInv_is_consistent {po : PriorityOrder} (h : SyncInv po)
    (r d : FS) : SyncInv ((is_consistent po r d).2) :=
  syncInv_congr _ po
    (fun k => by rw [okeys_is_consistent_of_sync (fun f S hS => (h.2 f S hS).2) r d])
    (fun f => iGet_is_consistent po r d f) h

theorem syncInv_runChecks :
    ∀ (pairs : List (FS × FS)) (po : PriorityOrder), SyncInv po →
      SyncInv (runChecks po pairs).2 := by
  intro pairs
  induction pairs with
  | nil => exact fun po h => h
  | cons p rest ih =>
      intro po h
      have h1 := syncInv_is_consistent h p.1 p.2
      rw [runChecks]
      rcases hx : is_consistent po p.1 p.2 with ⟨res, po1⟩
      rw [hx] at h1
      rcases res with _ | b
      · exact h1
      · rcases b with _ | _
        · exact h1
        · exact ih po1 h1

theorem syncInv_runCount :
    ∀ (pairs : List (FS × FS)) (po : PriorityOrder) (n : Nat), SyncInv po →
      SyncInv (runCount po pairs n).2 := by
  intro pairs
  induction pairs with
  | nil => exact fun po n h => h
  | cons p rest ih =>
      intro po n h
      have h1 := syncInv_is_consistent h p.1 p.2
      rw [runCount]
      rcases hx : is_consistent po p.1 p.2 with ⟨res, po1⟩
      rw [hx] at h1
      rcases res with _ | b
      · exact h1
      · exact ih po1 _ h1

/-- States reachable from the empty order by `PriorityOrder` operations. -/
inductive Reachable : PriorityOrder → Prop where
  | empty : Reachable emptyPO
  | add_order (po : PriorityOrder) (r d : FS) : Reachable po →
      Reachable (add_order_with_subsets po r d)
  | add_pair (po : PriorityOrder) (r1 r2 : FS) : Reachable po →
      Reachable (add_pair_as_appropriate po r1 r2)
  | add_case (po : PriorityOrder) (c : Case) : Reachable po →
      Reachable (unsafe_add_case po c)
  | add_cases (po : PriorityOrder) (cs : List Case) : Reachable po →
      Reachable (unsafe_add_cases po cs)
  | consistent (po : PriorityOrder) (r d : FS) : Reachable po →
      Reachable ((is_consistent po r d).2)
  | cb_consistent (po : PriorityOrder) : Reachable po →
      Reachable ((is_cb_consistent po).2)
  | count (po : PriorityOrder) : Reachable po →
      Reachable ((count_inconsistencies po).2)
  | case_consistent (po : PriorityOrder) (c : Case) : Reachable po →
      Reachable ((is_case_consistent_with po c).2)

theorem candidateKeys_congr {po' po : PriorityOrder}
    (hig : ∀ f, iGet po' f = iGet po f) (r : FS) :
    candidateKeys po' r = candidateKeys po r := by
  unfold candidateKeys
  simp only [hig]

theorem consistentRes_congr {po' po : PriorityOrder}
    (hig : ∀ f, iGet po' f = iGet po f)
    (hog : ∀ k, oGet po' k = oGet po k) (r d : FS) :
    consistentRes po' r d = consistentRes po r d := by
  unfold consistentRes
  rw [candidateKeys_congr hig]
  simp only [hog]

theorem is_consistent_fst_congr {po' po : PriorityOrder}
    (hig : ∀ f, iGet po' f = iGet po f)
    (hog : ∀ k, oGet po' k = oGet po k) (r d : FS) :
    (is_consistent po' r d).1 = (is_consistent po r d).1 := by
  by_cases hr : r = ∅
  · subst hr
    rw [is_consistent_empty_reason, is_consistent_empty_reason]
  · rw [is_consistent_of_ne po' r d hr, is_consistent_of_ne po r d hr]
    exact congrArg some (consistentRes_congr hig hog r d)

theorem is_consistent_fst_of_ne (po : PriorityOrder) {r : FS} (d : FS)
    (hr : r ≠ ∅) :
    (is_consistent po r d).1 = some (consistentRes po r d) := by
  rw [is_consistent_of_ne po r d hr]

/-- The loop of `count_inconsistencies`, characterised against the views of
the starting state: `is_consistent` never changes a stored bucket, so every
check in the loop evaluates as it would on the state the loop started from. -/
theorem runCount_spec (po0 : PriorityOrder) :
    ∀ (pairs : List (FS × FS)) (po : PriorityOrder) (n : Nat),
      (∀ f, iGet po f = iGet po0 f) → (∀ k, oGet po k = oGet po0 k) →
      (runCount po pairs n).1 =
        if ∀ p ∈ pairs, p.1 ≠ (∅ : FS) then
          some (n + pairs.countP fun p =>
            decide ((is_consistent po0 p.1 p.2).1 = some false))
        else none := by
  intro pairs
  induction pairs with
  | nil =>
      intro po n _ _
      simp [runCount]
  | cons p rest ih =>
      intro po n hig hog
      rw [runCount]
      by_cases hp : p.1 = (∅ : FS)
      · have hx1 : is_consistent po p.1 p.2 = (none, po) := by
          rw [hp]
          exact is_consistent_empty_reason po p.2
        have hcond : ¬∀ q ∈ p :: rest, q.1 ≠ (∅ : FS) := fun hall =>
          hall p (List.mem_cons_self p rest) hp
        rw [if_neg hcond]
        simp only [hx1]
      · rcases hx : is_consistent po p.1 p.2 with ⟨res, po1⟩
        have hres : res = some (consistentRes po p.1 p.2) := by
          have hfst := congrArg Prod.fst hx
          rw [is_consistent_fst_of_ne po p.2 hp] at hfst
          exact hfst.symm
        subst hres
        have hsnd : (is_consistent po p.1 p.2).2 = po1 := by rw [hx]
        have hig1 : ∀ f, iGet po1 f = iGet po0 f := fun f => by
          rw [← hsnd, iGet_is_consistent, hig]
        have hog1 : ∀ k, oGet po1 k = oGet po0 k := fun k => by
          rw [← hsnd, oGet_is_consistent, hog]
        simp only [hx]
        rw [ih po1 _ hig1 hog1]
        have hfst0 : (is_consistent po0 p.1 p.2).1 =
            some (consistentRes po p.1 p.2) := by
          rw [← is_consistent_fst_congr hig hog p.1 p.2,
            is_consistent_fst_of_ne po p.2 hp]
        by_cases hrest : ∀ q ∈ rest, q.1 ≠ (∅ : FS)
        · have hall : ∀ q ∈ p :: rest, q.1 ≠ (∅ : FS) := by
            intro q hq
            rcases List.mem_cons.mp hq with rfl | hq2
            · exact hp
            · exact hrest q hq2
          rw [if_pos hrest, if_pos hall, List.countP_cons]
          simp only [hfst0, Option.some.injEq, decide_eq_true_eq]
          rcases hb : consistentRes po p.1 p.2 with _ | _
          · simp [hb]
            omega
          · simp [hb]
        · rw [if_neg hrest, if_neg (by
            intro hall
            exact hrest fun q hq => hall q (List.mem_cons_of_mem p hq))]

/-- Factor "A" favouring pi. -/
def fA : Factor := ⟨"A", .dec .pi⟩

/-- Factor "B" favouring pi. -/
def fB : Factor := ⟨"B", .dec .pi⟩

/-- Factor "A" favouring delta: distinct from `fA` because polarity differs. -/
def fAd : Factor := ⟨"A", .dec .delta⟩

/-- Factor "C" favouring delta. -/
def fCd : Factor := ⟨"C", .dec .delta⟩

/-- Record of Case1 from the specification scenario: pro factors A and B,
no con factors, decision pi, reason A. -/
def dict1 : CaseDict := ⟨["A", "B"], [], "pi", ["A"]⟩

/-- Record of Case2 from the specification scenario: no pro factors, con
factors A and C, decision delta, reason A and C. -/
def dict2 : CaseDict := ⟨[], ["A", "C"], "delta", ["A", "C"]⟩

/-- The Case built by `Case.from_dict dict1`. -/
def case1 : Case := ⟨{fA, fB}, ∅, .dec .pi, {fA}⟩

/-- The Case built by `Case.from_dict dict2`. -/
def case2 : Case := ⟨∅, {fAd, fCd}, .dec .delta, {fAd, fCd}⟩

/-- A case whose reason beats a nonempty defeated set; folding it into the
empty order stores the pair ({A delta}, {A pi}) in `order` and indexes
{A delta} under the factor A-delta. -/
def c3case : Case := ⟨{fA}, {fAd}, .dec .pi, {fA}⟩

/-- The order obtained by folding `c3case` into the empty order. -/
def po3 : PriorityOrder := unsafe_add_case emptyPO c3case

/-- An order with one recorded pair and an index bucket only for `fAd`. -/
def po6 : PriorityOrder := add_order_with_subsets emptyPO {fA} {fAd}

/-- A case recording the reason set A = the singleton of `fA`. -/
def caseA5 : Case := Case.init ∅ ∅ (.dec .un) {fA}

/-- A case recording the reason set B = the pair of `fA` and `fB`. -/
def caseB5 : Case := Case.init ∅ ∅ (.dec .un) {fA, fB}

/-- C8: for every Case, `defeated()` is the con side for a pi decision, the
pro side for a delta decision, and empty for an undecided decision. -/
theorem defeated_spec (pf df r : FS) :
    (Case.mk pf df (.dec .pi) r).defeated = df ∧
    (Case.mk pf df (.dec .delta) r).defeated = pf ∧
    (Case.mk pf df (.dec .un) r).defeated = ∅ :=
  ⟨rfl, rfl, rfl⟩

/-- C10: the direct `Case` constructor validates nothing: for every
combination of factor sets, decision value (enum member or raw string), and
reason set it succeeds and stores the four arguments unchanged. -/
theorem case_init_spec (pf df : FS) (dcn : Polarity) (r : FS) :
    (Case.init pf df dcn r).pi_factors = pf ∧
    (Case.init pf df dcn r).delta_factors = df ∧
    (Case.init pf df dcn r).decision = dcn ∧
    (Case.init pf df dcn r).reason = r :=
  ⟨rfl, rfl, rfl, rfl⟩

/-- C9 counterexample: `Factor.__init__` accepts the empty name without
error, and a factor built with the default polarity is not equal to one built
with the enum member `un` — the default is the string "un", so the equality
test below decides to false. -/
theorem factor_init_counterexample :
    Factor.init "" = ⟨"", .str "un"⟩ ∧
    decide (Factor.init "x" = ⟨"x", .dec .un⟩) = false := by
  constructor
  · rfl
  · rfl

/-- C9 amended: Factor construction performs no validation at all (any name,
including the empty one, is stored unchanged); an omitted polarity defaults
to the string "un", which equals a factor built with the explicit string "un"
but never equals one built with the enum member `un`. -/
theorem factor_init_spec :
    (∀ n p, Factor.init n p = ⟨n, p⟩) ∧
    (∀ n, Factor.init n = Factor.init n (.str "un")) ∧
    ∀ n, (Factor.init n).polarity = .str "un" :=
  ⟨fun _ _ => rfl, fun _ => rfl, fun _ => rfl⟩

/-- C2 counterexample: on the empty order, `is_consistent` with an empty
`new_reason` raises (modelled as `none`) instead of returning a boolean. -/
theorem is_consistent_empty_reason_raises :
    (is_consistent emptyPO ∅ ∅).1 = none := rfl

/-- C2 amended: `is_consistent` raises — `frozenset.intersection` applied to
zero buckets is a `TypeError` — exactly when `new_reason` is empty; for every
nonempty `new_reason` (on any state and any `new_defeated`) it returns a
boolean.  There is no special case treating the empty intersection as
vacuously consistent. -/
theorem is_consistent_none_iff (po : PriorityOrder) (r d : FS) :
    (is_consistent po r d).1 = none ↔ r = ∅ := by
  by_cases hr : r = ∅
  · subst hr
    rw [is_consistent_empty_reason]
    simp
  · rw [is_consistent_of_ne po r d hr]
    simp [hr]

/-- C4: `Case.from_dict` fails precisely when the decision label decodes to
no `decision_enum` member or the reason set (tagged with the decoded
decision) is not a subset of the winning side's factors; otherwise it returns
the case carrying exactly the built pi, delta and reason factor sets and the
decoded decision. -/
theorem from_dict_spec (d : CaseDict) :
    ((∃ e, Case.from_dict d = Except.error e) ↔
      decodeDecision d.decision = none ∨
        ∃ dv, decodeDecision d.decision = some dv ∧
          ¬ d.reasonFactors dv ⊆ d.winningFactors dv) ∧
    ∀ dv, decodeDecision d.decision = some dv →
      d.reasonFactors dv ⊆ d.winningFactors dv →
      Case.from_dict d =
        Except.ok ⟨d.piFactors, d.deltaFactors, .dec dv, d.reasonFactors dv⟩ := by
  rcases hd : decodeDecision d.decision with _ | dv
  · refine ⟨⟨fun _ => Or.inl rfl, fun _ => ?_⟩, fun dv hdv => ?_⟩
    · refine ⟨.keyError d.decision, ?_⟩
      simp only [Case.from_dict, hd]
    · cases hdv
  · by_cases hsub : d.reasonFactors dv ⊆ d.winningFactors dv
    · have hok : Case.from_dict d =
          Except.ok ⟨d.piFactors, d.deltaFactors, .dec dv, d.reasonFactors dv⟩ := by
        simp only [Case.from_dict, hd]
        rw [if_pos hsub]
      refine ⟨⟨?_, ?_⟩, ?_⟩
      · rintro ⟨e, he⟩
        rw [hok] at he
        cases he
      · rintro (h | ⟨dv2, hdv2, hnsub⟩)
        · cases h
        · injection hdv2 with h2
          subst h2
          exact absurd hsub hnsub
      · intro dv2 hdv2 _
        injection hdv2 with h2
        subst h2
        exact hok
    · have herr : Case.from_dict d = Except.error .valueError := by
        simp only [Case.from_dict, hd]
        rw [if_neg hsub]
      refine ⟨⟨fun _ => Or.inr ⟨dv, rfl, hsub⟩, fun _ => ⟨.valueError, herr⟩⟩, ?_⟩
      intro dv2 hdv2 hsub2
      injection hdv2 with h2
      subst h2
      exact absurd hsub2 hsub

/-- C4 witness: the Case1 record of the scenario decodes to decision pi, its
reason is a subset of the winning side, and `from_dict` builds the expected
case. -/
theorem from_dict_spec_witness :
    decodeDecision dict1.decision = some Decision.pi ∧
    Case.from_dict dict1 =
      Except.ok ⟨dict1.piFactors, dict1.deltaFactors, .dec .pi,
        dict1.reasonFactors .pi⟩ :=
  ⟨rfl, (from_dict_spec dict1).2 Decision.pi rfl (by decide)⟩

/-- C1 counterexample: after folding Case1 into the empty order, the
consistency check of Case2 returns true — not false as the claim states. -/
theorem scenario_check_case2_not_false :
    (is_consistent (unsafe_add_case emptyPO case1)
      case2.reason case2.defeated).1 = some true := by
  decide

/-- C1 amended: the scenario's two records build the expected cases, and
after folding Case1 into the empty order the consistency check of Case2
returns true: Case1 only indexes its (empty) defeated set, so no index bucket
mentions the delta-tagged factors of Case2's reason, the superset
intersection is empty, and no recorded reason constrains Case2. -/
theorem scenario_check_case2_true :
    Case.from_dict dict1 = Except.ok case1 ∧
    Case.from_dict dict2 = Except.ok case2 ∧
    (is_consistent (unsafe_add_case emptyPO case1)
      case2.reason case2.defeated).1 = some true := by
  refine ⟨rfl, rfl, ?_⟩
  decide

/-- C3 counterexample: on the order built from a single case whose reason
{A pi} beats {A delta}, `is_cb_consistent` returns true while
`count_inconsistencies` returns 1, so a zero count is not equivalent to a
consistent case base. -/
theorem count_pos_while_cb_consistent :
    (count_inconsistencies po3).1 = some 1 ∧
    (is_cb_consistent po3).1 = some true :=
  ⟨by decide, by decide⟩

/-- C3 amended: `count_inconsistencies` traverses the same stored pairs as
`is_cb_consistent` but passes each to `is_consistent` swapped — the mapping
key (a defeated set) as `new_reason` and the bucket member (a stored reason)
as `new_defeated`.  When it returns a count, that count is the number of
swapped pairs on which `is_consistent` answers false, each evaluated against
the state the traversal started from. -/
theorem count_inconsistencies_swapped (po : PriorityOrder) (n : Nat)
    (h : (count_inconsistencies po).1 = some n) :
    countPairs po = (cbPairs po).map Prod.swap ∧
    n = (countPairs po).countP fun p =>
      decide ((is_consistent po p.1 p.2).1 = some false) := by
  constructor
  · simp [countPairs, cbPairs, List.map_flatMap, List.map_map,
      Function.comp_def]
  · have hs := runCount_spec po (countPairs po) po 0
      (fun _ => rfl) (fun _ => rfl)
    rw [count_inconsistencies] at h
    rw [hs] at h
    split_ifs at h with hcond
    have h2 := Option.some.inj h
    omega

/-- C3 witness: on the one-pair order `po3` the count is 1 and equals the
number of swapped pairs failing `is_consistent`. -/
theorem count_inconsistencies_swapped_witness :
    (count_inconsistencies po3).1 = some 1 ∧
    1 = (countPairs po3).countP fun p =>
      decide ((is_consistent po3 p.1 p.2).1 = some false) :=
  ⟨by decide, (count_inconsistencies_swapped po3 1 (by decide)).2⟩

/-- C6 counterexample: a returning `is_consistent` call changes the inverted
index: on `po6` the index holds only the delta-tagged factor, the queried
reason's pi-tagged factor is absent, and the `defaultdict` lookup
materialises an empty bucket for it, so the index key set gains a key. -/
theorem is_consistent_mutates_index :
    (is_consistent po6 {fA} ∅).1 = some true ∧
    po6.ikeys = {fAd} ∧
    ((is_consistent po6 {fA} ∅).2).ikeys = {fAd, fA} := by
  refine ⟨by decide, by decide, by decide⟩

/-- The index references only existing order keys: the part of the
synchronisation invariant needed to show `is_consistent` leaves the order
mapping untouched. -/
def Synced (po : PriorityOrder) : Prop :=
  ∀ f ∈ po.ikeys, ∀ S ∈ iGet po f, S ∈ po.okeys

instance (po : PriorityOrder) : Decidable (Synced po) :=
  inferInstanceAs (Decidable (∀ f ∈ po.ikeys, ∀ S ∈ iGet po f, S ∈ po.okeys))

/-- C6 amended: on states whose index references only existing order keys,
`is_consistent` leaves the order mapping exactly as it was — same keys, same
buckets — and changes no index bucket either; its only effect is that the
factors of a nonempty `new_reason` are added to the index key set, each
missing one materialised with an empty bucket by the `defaultdict` lookups. -/
theorem is_consistent_frame (po : PriorityOrder) (r d : FS) (hS : Synced po) :
    ((is_consistent po r d).2).okeys = po.okeys ∧
    (∀ k, oGet ((is_consistent po r d).2) k = oGet po k) ∧
    (∀ f, iGet ((is_consistent po r d).2) f = iGet po f) ∧
    ((is_consistent po r d).2).ikeys =
      (if r = ∅ then po.ikeys else po.ikeys ∪ r) := by
  refine ⟨okeys_is_consistent_of_sync
      (fun f S hS2 => hS f (mem_iGet_ikeys hS2) S hS2) r d,
    oGet_is_consistent po r d, iGet_is_consistent po r d, ?_⟩
  by_cases hr : r = ∅
  · subst hr
    rw [is_consistent_empty_reason, if_pos rfl]
  · rw [is_consistent_of_ne po r d hr, if_neg hr]

/-- C6 witness: on the synced state `po6` the order keys survive the call. -/
theorem is_consistent_frame_witness :
    ((is_consistent po6 {fA} ∅).2).okeys = po6.okeys :=
  (is_consistent_frame po6 {fA} ∅ (by decide)).1

/-- C7: every state reachable from the empty order by `PriorityOrder`
operations keeps the two structures synchronised: each order key is indexed
under every one of its factors, and every indexed set contains its indexing
factor and is an order key. -/
theorem reachable_sync_invariant (po : PriorityOrder) (h : Reachable po) :
    SyncInv po := by
  induction h with
  | empty => exact syncInv_empty
  | add_order po r d _ ih => exact syncInv_add_order ih r d
  | add_pair po r1 r2 _ ih => exact syncInv_add_pair ih r1 r2
  | add_case po c _ ih => exact syncInv_unsafe_add_case ih c
  | add_cases po cs _ ih => exact syncInv_unsafe_add_cases ih cs
  | consistent po r d _ ih => exact syncInv_is_consistent ih r d
  | cb_consistent po _ ih => exact syncInv_runChecks (cbPairs po) po ih
  | count po _ ih => exact syncInv_runCount (countPairs po) po 0 ih
  | case_consistent po c _ ih =>
      exact syncInv_is_consistent ih c.reason c.defeated

/-- C7 witness: on the reachable one-case order `po3`, the invariant proved
for reachable states places the stored defeated key in the index bucket of
its factor. -/
theorem reachable_sync_invariant_witness :
    ({fAd} : FS) ∈ iGet po3 fAd :=
  (reachable_sync_invariant po3
      (Reachable.add_case emptyPO c3case Reachable.empty)).1
    {fAd} (by decide) fAd (by decide)

/-- C5: if reason sets A and B with A a strict subset of B are both recorded
as winning reasons by some sequence of `unsafe_add_case` calls (in either
order, with arbitrary other cases in between), then the resulting order
records B as outweighing A, and every defeated set beaten by A is beaten by B
in the transitive closure of the stored outweighs relation. -/
theorem priority_monotonicity (cs : List Case) (A B : FS) (hAB : A ⊂ B)
    (hA : ∃ c ∈ cs, c.reason = A) (hB : ∃ c ∈ cs, c.reason = B) :
    outweighs (runCases cs) B A ∧
    ∀ D : FS, outweighs (runCases cs) A D →
      Relation.TransGen (outweighs (runCases cs)) B D := by
  have hmain : B ∈ oGet (runCases cs) A :=
    unsafe_add_cases_monotone hAB cs emptyPO hA hB
  exact ⟨hmain, fun D hAD =>
    Relation.TransGen.head hmain (Relation.TransGen.single hAD)⟩

/-- C5 witness: recording the reasons {A pi} and then {A pi, B pi} makes the
larger reason outweigh the smaller one. -/
theorem priority_monotonicity_witness :
    outweighs (runCases [caseA5, caseB5]) {fA, fB} {fA} :=
  (priority_monotonicity [caseA5, caseB5] {fA} {fA, fB} (by decide)
      ⟨caseA5, List.mem_cons_self caseA5 [caseB5], rfl⟩
      ⟨caseB5, List.mem_cons_of_mem caseA5
        (List.mem_cons_self caseB5 []), rfl⟩).1
